import Mathlib

/-!
Shallow embedding of the conversational retrieval core of the
ai-support-agent repository (files simple_rag.py and support_agent.py),
together with theorems settling the frozen claims about it.

Python strings are modelled as Lean `String` values, with the Python
primitives (`str.strip`, `str.lower`, the substring operator `in`,
`str.split`, `re.findall(r'\w+', ...)`) re-implemented below over the
character list of the string. Python dictionaries used for document
metadata are modelled as association lists with unique keys. Stateful
methods become explicit state-passing functions; Python exceptions are
modelled with `Except`, and calls into external services (the LLM
constructor, the LLM invocation, the chat-completion endpoint, the
recognizer stop call) are passed in as `Except`-valued parameters.
-/

namespace AISupport

/-! ## Python string primitives -/

/-- Python `str.lower()` (character-wise lowercasing). -/
def pyLower (s : String) : String := ⟨s.data.map Char.toLower⟩

/-- Whitespace test used by Python `str.strip()`. -/
def wsChar (c : Char) : Bool := c.isWhitespace

/-- Python `str.strip()`: drop leading and trailing whitespace. -/
def pystrip (s : String) : String :=
  ⟨((s.data.dropWhile wsChar).reverse.dropWhile wsChar).reverse⟩

/-- Python substring operator `needle in hay` on character lists:
some suffix of `hay` starts with `needle`. -/
def pyContainsL (hay needle : List Char) : Bool :=
  hay.tails.any (fun suf => needle.isPrefixOf suf)

/-- Python substring operator `needle in hay` on strings. -/
def pyContains (hay needle : String) : Bool := pyContainsL hay.data needle.data

/-- Number of positions of `s` at which `pat` occurs as a substring. -/
def countOcc (pat : List Char) : List Char → Nat
  | [] => if pat.isPrefixOf ([] : List Char) then 1 else 0
  | c :: rest => (if pat.isPrefixOf (c :: rest) then 1 else 0) + countOcc pat rest

/-- Number of occurrences of the substring `pat` in `s`. -/
def countOccStr (s pat : String) : Nat := countOcc pat.data s.data

/-- Word character of the regex class in `re.findall` with a word pattern:
alphanumeric or underscore. -/
def isWordChar (c : Char) : Bool := c.isAlphanum || c == '_'

/-- Maximal runs of word characters of a character list (the accumulator
holds the current run, reversed). Models `re.findall` with the word-run
pattern. -/
def splitWordsAux : List Char → List Char → List (List Char)
  | [], acc => if acc.isEmpty then [] else [acc.reverse]
  | c :: cs, acc =>
    if isWordChar c then splitWordsAux cs (c :: acc)
    else if acc.isEmpty then splitWordsAux cs []
    else acc.reverse :: splitWordsAux cs []

/-- The set of lowercase word tokens of a string:
`set(re.findall(word_pattern, s.lower()))` in the source. -/
def wordSet (s : String) : Finset String :=
  ((splitWordsAux (pyLower s).data []).map (fun l => (⟨l⟩ : String))).toFinset

/-- Python `s.split('\n\n')` on character lists: split at each
non-overlapping leftmost occurrence of two consecutive newline
characters. -/
def splitParasAux : List Char → List Char → List (List Char)
  | [], acc => [acc.reverse]
  | '\n' :: '\n' :: cs, acc => acc.reverse :: splitParasAux cs []
  | c :: cs, acc => splitParasAux cs (c :: acc)

/-- Python `doc.page_content.split('\n\n')`. -/
def pySplitParas (s : String) : List String :=
  (splitParasAux s.data []).map (fun l => (⟨l⟩ : String))

/-! ## Data model: documents and metadata -/

/-- A metadata value of a document: the source only stores strings
(source path, title, ...) and numbers (page, chunk index, status code)
in the metadata dictionary; booleans are folded into `nat`. -/
inductive MVal where
  | str : String → MVal
  | nat : Nat → MVal
deriving DecidableEq

/-- A Python metadata dictionary, modelled as an association list whose
keys are unique and kept in insertion order. -/
abbrev Meta := List (String × MVal)

/-- LangChain `Document(page_content=..., metadata=...)`. -/
structure Document where
  page_content : String
  metadata : Meta
deriving DecidableEq

/-- Python `{**m, k: v}`: if `k` is already a key of `m`, replace its
value in place; otherwise append the new binding. -/
def dictInsert (m : Meta) (k : String) (v : MVal) : Meta :=
  if m.any (fun p => p.1 == k) then
    m.map (fun p => if p.1 == k then (k, v) else p)
  else m ++ [(k, v)]

/-- Python `m.get(k)`: value of the first binding of `k`. -/
def dictGet (m : Meta) (k : String) : Option MVal :=
  (m.find? (fun p => p.1 == k)).map (fun p => p.2)

/-! ## SimpleRAGSystem -/

/-- The downstream LLM client held in `self.llm`; its construction is
modelled by an `Except`-valued parameter, the client itself is opaque. -/
abbrev LLMClient := Unit

/-- The mutable state of a `SimpleRAGSystem` instance:
`self.documents` and `self.llm`. -/
structure RAGState where
  documents : List Document
  llm : Option LLMClient
deriving DecidableEq

/-- The loop body of `SimpleRAGSystem.process_documents` for one
document: one chunk per paragraph whose stripped text is non-empty,
with the stripped text as content, the parent metadata copied and the
paragraph index recorded under the key `chunk`. -/
def docChunks (doc : Document) : List Document :=
  (pySplitParas doc.page_content).enum.filterMap (fun ip =>
    if pystrip ip.2 ≠ "" then
      some ⟨pystrip ip.2, dictInsert doc.metadata "chunk" (.nat ip.1)⟩
    else none)

/-- `SimpleRAGSystem.process_documents`: split every document on
blank-line paragraph breaks into chunks. -/
def process_documents (documents : List Document) : List Document :=
  if documents.isEmpty then []
  else documents.flatMap docChunks

/-- The scored candidate list built by
`SimpleRAGSystem.find_relevant_documents`: every stored chunk whose
lowercase word set meets the query word set, paired with the overlap
count, in ingestion order. -/
def scoredDocs (query_words : Finset String) (documents : List Document) :
    List (Nat × Document) :=
  documents.filterMap (fun doc =>
    let overlap := (query_words ∩ wordSet doc.page_content).card
    if overlap > 0 then some (overlap, doc) else none)

/-- One step of the stable descending insertion sort on score: `x` is
placed before the first earlier-sorted element whose score does not
exceed it. -/
def insertDesc (x : Nat × Document) : List (Nat × Document) → List (Nat × Document)
  | [] => [x]
  | y :: l => if y.1 ≤ x.1 then x :: y :: l else y :: insertDesc x l

/-- Python `scored_docs.sort(key=lambda x: x[0], reverse=True)`: a stable
sort by non-increasing first component. -/
def sortDescStable : List (Nat × Document) → List (Nat × Document)
  | [] => []
  | x :: l => insertDesc x (sortDescStable l)

/-- The overlap score of a chunk against a fixed query word set. -/
def overlapScore (query_words : Finset String) (d : Document) : Nat :=
  (query_words ∩ wordSet d.page_content).card

/-- `SimpleRAGSystem.find_relevant_documents`: score every stored chunk
by word overlap with the query, drop zero scores, sort stably by
descending score and return the first `k` chunks. -/
def find_relevant_documents (documents : List Document) (query : String)
    (k : Nat := 3) : List Document :=
  if documents.isEmpty then []
  else
    ((sortDescStable (scoredDocs (wordSet query) documents)).take k).map
      (fun p => p.2)

/-- `SimpleRAGSystem.create_knowledge_base`: with a non-empty chunk list,
first install the chunks in `self.documents`, then construct the LLM
client; a construction failure is re-raised after the chunks are already
installed. The constructor call is the `mkLLM` parameter. -/
def create_knowledge_base (mkLLM : Except String LLMClient)
    (documents : List Document) (s : RAGState) : RAGState × Except String Unit :=
  if documents.isEmpty then (s, .ok ())
  else
    match mkLLM with
    | .ok llm => ({s with documents := documents, llm := some llm}, .ok ())
    | .error e => ({s with documents := documents}, .error e)

/-- The context block of `SimpleRAGSystem.query`: the selected chunks'
text joined with blank lines. -/
def rag_context (docs : List Document) : String :=
  String.intercalate "\n\n" (docs.map (fun d => d.page_content))

/-- The instructional prompt of `SimpleRAGSystem.query` (source text with
apostrophes written out). -/
def rag_prompt (context question : String) : String :=
  "Based on the following information from the knowledge base, answer the question.\n\nKnowledge Base Information:\n"
    ++ context
    ++ "\n\nQuestion: " ++ question
    ++ "\n\nPlease provide a helpful and accurate answer based on the information above. If the information does not directly answer the question, say so and provide what information is available."

/-- The result dictionary of `SimpleRAGSystem.query`. -/
structure QueryResult where
  answer : String
  source_documents : List Document
deriving DecidableEq

/-- `SimpleRAGSystem.query`: fixed replies for an uninitialized store or
an empty retrieval; otherwise one LLM invocation (the `invoke`
parameter) whose failure is caught and turned into an error answer with
no sources. -/
def query (invoke : String → Except String String) (s : RAGState)
    (question : String) : QueryResult :=
  if s.llm.isNone || s.documents.isEmpty then
    ⟨"RAG system not initialized. Please upload documents first.", []⟩
  else
    let relevant_docs := find_relevant_documents s.documents question 3
    if relevant_docs.isEmpty then
      ⟨"No relevant information found in the knowledge base.", []⟩
    else
      match invoke (rag_prompt (rag_context relevant_docs) question) with
      | .ok answer => ⟨answer, relevant_docs⟩
      | .error e => ⟨"Error querying RAG system: " ++ e, []⟩

/-! ## SupportAgent: speech session -/

/-- Result reasons of recognition events (the Azure `ResultReason`
values the source inspects). -/
inductive ResultReason where
  | recognizedSpeech
  | recognizingSpeech
  | noMatch
  | canceled
deriving DecidableEq

/-- A recognition event carrying its result reason and text. -/
structure SpeechEvent where
  reason : ResultReason
  text : String
deriving DecidableEq

/-- The speech-session fields of a `SupportAgent`:
`self.recognized_text`, the in-progress hypothesis text (named
partial_text in the source) and `self.is_recognizing`. -/
structure SpeechState where
  recognized_text : String
  pending_text : String
  is_recognizing : Bool
deriving DecidableEq

/-- The speech-session fields as `SupportAgent.__init__` leaves them. -/
def initSpeechState : SpeechState := ⟨"", "", false⟩

/-- The session-state effect of
`SupportAgent.start_continuous_recognition`: clear the accumulated final
text and mark recognition active. -/
def start_continuous_recognition (s : SpeechState) : SpeechState :=
  {s with recognized_text := "", is_recognizing := true}

/-- The `recognized_cb` callback: on a finalized-utterance event, strip
the event text and append it (followed by a space) to the accumulated
final text unless it is empty or already occurs in the accumulated
text. -/
def recognized_cb (evt : SpeechEvent) (s : SpeechState) : SpeechState :=
  if evt.reason = .recognizedSpeech then
    let new_text := pystrip evt.text
    if new_text ≠ "" ∧ pyContains s.recognized_text new_text = false then
      {s with recognized_text := s.recognized_text ++ new_text ++ " "}
    else s
  else s

/-- `SupportAgent.stop_continuous_recognition`: when a recognizer is
present and recognition is active, forward the stop request (the
`recStop` parameter; the asynchronous callbacks that then clear the
active flag are outside this function). In every non-raising path the
stripped accumulated text is returned and both text buffers are
cleared. -/
def stop_continuous_recognition (recStop : Except String Unit)
    (hasRecognizer : Bool) (s : SpeechState) :
    Except String (String × SpeechState) :=
  if hasRecognizer ∧ s.is_recognizing then
    match recStop with
    | .error e => .error e
    | .ok _ =>
        .ok (pystrip s.recognized_text,
          {s with recognized_text := "", pending_text := ""})
  else
    .ok (pystrip s.recognized_text,
      {s with recognized_text := "", pending_text := ""})

/-- `SupportAgent.get_current_transcription`: strip both buffers and
combine them for live display. -/
def get_current_transcription (s : SpeechState) : String :=
  let final := pystrip s.recognized_text
  let pend := pystrip s.pending_text
  if final ≠ "" ∧ pend ≠ "" ∧ pyContains (pyLower final) (pyLower pend) = false then
    final ++ " " ++ pend
  else if final ≠ "" then final
  else if pend ≠ "" then pend
  else ""

/-- The amended display combination, written from the corrected claim:
the stripped final text alone when the stripped hypothesis text is
empty or case-insensitively contained in it; otherwise the hypothesis
text alone when the final text is empty, and the two joined by a single
space when both are non-empty. -/
def transcript_spec (s : SpeechState) : String :=
  let final := pystrip s.recognized_text
  let pend := pystrip s.pending_text
  if pend = "" ∨ pyContains (pyLower final) (pyLower pend) = true then final
  else if final = "" then pend
  else final ++ " " ++ pend

/-! ## SupportAgent: conversation -/

/-- One conversation turn (a Python message dictionary with `role` and
`content`). -/
structure Message where
  role : String
  content : String
deriving DecidableEq

/-- The conversation-level state of a `SupportAgent`:
`self.conversation_history`, `self.system_prompt`, `self.use_rag` and
the owned `SimpleRAGSystem` state. -/
structure AgentState where
  conversation_history : List Message
  system_prompt : String
  use_rag : Bool
  rag : RAGState
deriving DecidableEq

/-- `SupportAgent.reset_conversation`: empty the conversation history. -/
def reset_conversation (s : AgentState) : AgentState :=
  {s with conversation_history := []}

/-- The system prompt used by `SupportAgent.generate_response` for one
call: when RAG is enabled and chunks are stored, the stored prompt
augmented with the RAG answer (source text with apostrophes written
out); otherwise the stored prompt. `ragInvoke` is the LLM invocation
used inside the RAG query. -/
def enhanced_prompt_of (ragInvoke : String → Except String String)
    (s : AgentState) (user_input : String) : String :=
  if s.use_rag && !s.rag.documents.isEmpty then
    s.system_prompt
      ++ "\n\nBased on the knowledge base, here is relevant information:\n"
      ++ (query ragInvoke s.rag user_input).answer
      ++ "\n\nUse this information to provide a helpful and accurate response. If the information does not directly answer the question, use your general knowledge to provide a helpful response."
  else s.system_prompt

/-- The message list `SupportAgent.generate_response` sends to the
chat-completion endpoint: the per-call system prompt followed by the
history with the new user turn already appended. -/
def gr_messages (ragInvoke : String → Except String String)
    (s : AgentState) (user_input : String) : List Message :=
  ⟨"system", enhanced_prompt_of ragInvoke s user_input⟩ ::
    (s.conversation_history ++ [⟨"user", user_input⟩])

/-- `SupportAgent.generate_response`: append the user turn to the
history, then call the chat-completion endpoint (the `chat` parameter);
on success append the assistant turn and return its text, on failure
propagate the exception with the user turn still appended. -/
def generate_response (ragInvoke : String → Except String String)
    (chat : List Message → Except String String)
    (s : AgentState) (user_input : String) :
    AgentState × Except String String :=
  let hist1 := s.conversation_history ++ [⟨"user", user_input⟩]
  match chat (gr_messages ragInvoke s user_input) with
  | .error e => ({s with conversation_history := hist1}, .error e)
  | .ok a =>
      ({s with conversation_history := hist1 ++ [⟨"assistant", a⟩]}, .ok a)

/-- `SupportAgent.setup_rag_knowledge_base`: the loaded documents are
passed in as `loaded` (loading itself reads files and the network); an
empty load fails early with a fixed message and leaves the store
untouched, otherwise the chunks are processed, the knowledge base is
built, and any exception is caught and turned into a failure message. -/
def setup_rag_knowledge_base (mkLLM : Except String LLMClient)
    (loaded : List Document) (s : RAGState) : RAGState × Bool × String :=
  if loaded.isEmpty then (s, false, "No documents loaded")
  else
    let processed := process_documents loaded
    match create_knowledge_base mkLLM processed s with
    | (s1, .ok _) =>
        (s1, true,
          "Knowledge base created with " ++ toString processed.length
            ++ " document chunks")
    | (s1, .error e) => (s1, false, "Error setting up knowledge base: " ++ e)

deriving instance DecidableEq for Except

/-! ## Helper lemmas on the string primitives -/

theorem isPrefixOf_nil_left (l : List Char) :
    List.isPrefixOf ([] : List Char) l = true := by
  cases l <;> rfl

theorem isPrefixOf_append_self (l m : List Char) :
    l.isPrefixOf (l ++ m) = true := by
  induction l with
  | nil => cases m <;> rfl
  | cons c t ih =>
      have h : (c :: t).isPrefixOf ((c :: t) ++ m)
          = ((c == c) && t.isPrefixOf (t ++ m)) := rfl
      rw [h, ih, beq_self_eq_true]
      rfl

theorem length_le_of_isPrefixOf :
    ∀ (l m : List Char), l.isPrefixOf m = true → l.length ≤ m.length
  | [], _, _ => by simp
  | _ :: _, [], h => Bool.noConfusion h
  | c :: t, b :: bs, h => by
      have h' : ((c == b) && t.isPrefixOf bs) = true := h
      have h2 := (Bool.and_eq_true _ _).mp h' |>.2
      have := length_le_of_isPrefixOf t bs h2
      simpa using Nat.succ_le_succ this

theorem eq_of_isPrefixOf_length :
    ∀ (l m : List Char), l.isPrefixOf m = true → m.length ≤ l.length → l = m
  | [], [], _, _ => rfl
  | [], _ :: _, _, hlen => by simp at hlen
  | _ :: _, [], h, _ => Bool.noConfusion h
  | c :: t, b :: bs, h, hlen => by
      have h' : ((c == b) && t.isPrefixOf bs) = true := h
      have h1 := (Bool.and_eq_true _ _).mp h' |>.1
      have h2 := (Bool.and_eq_true _ _).mp h' |>.2
      have hcb : c = b := beq_iff_eq.mp h1
      have ht : t = bs := eq_of_isPrefixOf_length t bs h2 (by simpa using hlen)
      rw [hcb, ht]

theorem countOcc_eq_zero_of_lt :
    ∀ (pat m : List Char), m.length < pat.length → countOcc pat m = 0
  | pat, [], h => by
      cases pat with
      | nil => simp at h
      | cons c t => rfl
  | pat, c :: rest, h => by
      have h1 : pat.isPrefixOf (c :: rest) = false := by
        cases hp : pat.isPrefixOf (c :: rest) with
        | false => rfl
        | true =>
            have := length_le_of_isPrefixOf _ _ hp
            omega
      have h2 : countOcc pat rest = 0 :=
        countOcc_eq_zero_of_lt pat rest (by simp at h ⊢; omega)
      show (if pat.isPrefixOf (c :: rest) then 1 else 0) + countOcc pat rest = 0
      rw [h1, h2]
      rfl

theorem countOcc_eq_of_length :
    ∀ (pat m : List Char), m.length = pat.length →
      countOcc pat m = if pat = m then 1 else 0
  | pat, [], h => by
      have hp : pat = [] := List.length_eq_zero.mp h.symm
      subst hp
      rfl
  | pat, c :: rest, h => by
      have hz : countOcc pat rest = 0 :=
        countOcc_eq_zero_of_lt pat rest (by simp at h ⊢; omega)
      show (if pat.isPrefixOf (c :: rest) then 1 else 0) + countOcc pat rest = _
      by_cases hp : pat.isPrefixOf (c :: rest) = true
      · have he : pat = c :: rest := eq_of_isPrefixOf_length _ _ hp (by omega)
        rw [if_pos hp, if_pos he, hz]
      · have hne : pat ≠ c :: rest := by
          intro he
          apply hp
          rw [he]
          have := isPrefixOf_append_self (c :: rest) []
          rw [List.append_nil] at this
          exact this
        rw [if_neg hp, if_neg hne, hz]

theorem countOcc_concat_space (pat : List Char) (hne : pat ≠ [])
    (hlast : pat.getLast? ≠ some ' ') : countOcc pat (pat ++ [' ']) = 1 := by
  cases pat with
  | nil => exact absurd rfl hne
  | cons c q =>
      have step : countOcc (c :: q) ((c :: q) ++ [' '])
          = (if (c :: q).isPrefixOf (c :: (q ++ [' '])) then 1 else 0)
            + countOcc (c :: q) (q ++ [' ']) := rfl
      have h1 : (c :: q).isPrefixOf (c :: (q ++ [' '])) = true :=
        isPrefixOf_append_self (c :: q) [' ']
      have h2 : countOcc (c :: q) (q ++ [' '])
          = if (c :: q) = q ++ [' '] then 1 else 0 :=
        countOcc_eq_of_length _ _ (by simp)
      have h3 : (c :: q) ≠ q ++ [' '] := by
        intro he
        apply hlast
        rw [he]
        exact List.getLast?_concat _
      rw [step, h1, h2]
      simp [h3]

theorem head?_dropWhile_false (p : Char → Bool) (l : List Char) :
    ∀ a, (l.dropWhile p).head? = some a → p a = false := by
  induction l with
  | nil => intro a h; simp [List.dropWhile] at h
  | cons c t ih =>
      intro a h
      by_cases hc : p c = true
      · rw [List.dropWhile_cons, if_pos hc] at h
        exact ih a h
      · have hcf : p c = false := by
          cases hx : p c with
          | false => rfl
          | true => exact absurd hx hc
        rw [List.dropWhile_cons, if_neg hc] at h
        have : c = a := by simpa using h
        rw [← this]
        exact hcf

theorem pystrip_getLast?_not_ws (s : String) (a : Char)
    (h : (pystrip s).data.getLast? = some a) : wsChar a = false := by
  have hd : (pystrip s).data
      = ((s.data.dropWhile wsChar).reverse.dropWhile wsChar).reverse := rfl
  rw [hd, List.getLast?_reverse] at h
  exact head?_dropWhile_false wsChar _ a h

theorem pyContainsL_of_isPrefixOf {l x : List Char}
    (h : l.isPrefixOf x = true) : pyContainsL x l = true := by
  cases x with
  | nil =>
      show List.any [[]] (fun suf => l.isPrefixOf suf) = true
      simp [h]
  | cons b bs =>
      show List.any ((b :: bs) :: bs.tails) (fun suf => l.isPrefixOf suf) = true
      simp [h]

theorem pyContains_empty_needle (hay : String) : pyContains hay "" = true :=
  pyContainsL_of_isPrefixOf (isPrefixOf_nil_left hay.data)

theorem pyContains_empty_hay {needle : String} (h : needle ≠ "") :
    pyContains "" needle = false := by
  have hnd : needle.data ≠ [] := fun he => h (String.ext he)
  show List.any (List.tails ([] : List Char)) (fun suf => needle.data.isPrefixOf suf) = false
  cases hn : needle.data with
  | nil => exact absurd hn hnd
  | cons c cs => rfl

theorem pyLower_eq_empty_iff (x : String) : pyLower x = "" ↔ x = "" := by
  constructor
  · intro h
    apply String.ext
    have hd := String.ext_iff.mp h
    have : x.data.map Char.toLower = [] := hd
    simpa using this
  · intro h
    rw [h]
    rfl

/-! ## Helper lemmas on metadata dictionaries -/

theorem find?_map_update_self (k : String) (v : MVal) :
    ∀ (m : Meta), m.any (fun p => p.1 == k) = true →
      (m.map (fun p => if p.1 == k then (k, v) else p)).find?
          (fun p => p.1 == k) = some (k, v) := by
  intro m
  induction m with
  | nil => intro h; simp at h
  | cons p t ih =>
      intro h
      by_cases hpk : (p.1 == k) = true
      · rw [List.map_cons, if_pos hpk]
        rw [List.find?_cons_of_pos (p := fun q => q.1 == k) (a := (k, v)) _ (by simp)]
      · have ht : t.any (fun p => p.1 == k) = true := by
          rw [List.any_cons] at h
          rcases Bool.or_eq_true_iff.mp h with h1 | h2
          · exact absurd h1 hpk
          · exact h2
        rw [List.map_cons, if_neg hpk]
        rw [List.find?_cons_of_neg (p := fun q => q.1 == k) (a := p) _ hpk]
        exact ih ht

theorem find?_map_update_ne (k : String) (v : MVal) (k2 : String) (hne : k2 ≠ k) :
    ∀ (m : Meta),
      (m.map (fun p => if p.1 == k then (k, v) else p)).find?
          (fun p => p.1 == k2) = m.find? (fun p => p.1 == k2) := by
  intro m
  induction m with
  | nil => rfl
  | cons p t ih =>
      by_cases hpk : (p.1 == k) = true
      · have hp1 : p.1 = k := beq_iff_eq.mp hpk
        have hp2 : (p.1 == k2) = false := by
          rw [hp1]
          exact beq_eq_false_iff_ne.mpr (fun h => hne h.symm)
        have hk2 : ((k, v).1 == k2) = false :=
          beq_eq_false_iff_ne.mpr (fun h => hne h.symm)
        rw [List.map_cons, if_pos hpk,
          List.find?_cons_of_neg (p := fun q => q.1 == k2) (a := (k, v)) _ (by simp [hk2]),
          List.find?_cons_of_neg (p := fun q => q.1 == k2) (a := p) _ (by simp [hp2])]
        exact ih
      · rw [List.map_cons, if_neg hpk]
        cases hq : (p.1 == k2) with
        | true =>
            rw [List.find?_cons_of_pos (p := fun q => q.1 == k2) (a := p) _ hq,
              List.find?_cons_of_pos (p := fun q => q.1 == k2) (a := p) _ hq]
        | false =>
            rw [List.find?_cons_of_neg (p := fun q => q.1 == k2) (a := p) _ (by simp [hq]),
              List.find?_cons_of_neg (p := fun q => q.1 == k2) (a := p) _ (by simp [hq])]
            exact ih

theorem dictGet_dictInsert_self (m : Meta) (k : String) (v : MVal) :
    dictGet (dictInsert m k v) k = some v := by
  unfold dictInsert dictGet
  by_cases h : m.any (fun p => p.1 == k) = true
  · rw [if_pos h, find?_map_update_self k v m h]
    rfl
  · rw [if_neg h]
    have hnone : m.find? (fun p => p.1 == k) = none := by
      rw [List.find?_eq_none]
      intro x hx hpx
      exact h (List.any_eq_true.mpr ⟨x, hx, hpx⟩)
    rw [List.find?_append, hnone]
    rw [List.find?_cons_of_pos (p := fun q => q.1 == k) (a := (k, v)) _ (by simp)]
    rfl

theorem dictGet_dictInsert_ne (m : Meta) (k : String) (v : MVal)
    (k2 : String) (hne : k2 ≠ k) :
    dictGet (dictInsert m k v) k2 = dictGet m k2 := by
  unfold dictInsert dictGet
  by_cases h : m.any (fun p => p.1 == k) = true
  · rw [if_pos h, find?_map_update_ne k v k2 hne m]
  · rw [if_neg h, List.find?_append]
    have hlast : List.find? (fun p => p.1 == k2) [(k, v)] = none := by
      have hb : ((k, v).1 == k2) = false :=
        beq_eq_false_iff_ne.mpr (fun hx => hne hx.symm)
      rw [List.find?_cons_of_neg (p := fun q => q.1 == k2) (a := (k, v)) _ (by simp [hb])]
      rfl
    rw [hlast]
    cases m.find? (fun p => p.1 == k2) <;> rfl

/-! ## Helper lemmas for the chunker -/

theorem mem_enumFrom_get? {α : Type} :
    ∀ (ps : List α) (n : Nat) (ip : Nat × α), ip ∈ List.enumFrom n ps →
      ∃ i, ip.1 = n + i ∧ ps.get? i = some ip.2 := by
  intro ps
  induction ps with
  | nil => intro n ip h; simp [List.enumFrom] at h
  | cons p t ih =>
      intro n ip h
      rw [show List.enumFrom n (p :: t) = (n, p) :: List.enumFrom (n + 1) t from rfl] at h
      rcases List.mem_cons.mp h with h1 | h2
      · exact ⟨0, by simp [h1]⟩
      · obtain ⟨i, hi1, hi2⟩ := ih (n + 1) ip h2
        exact ⟨i + 1, by omega, by simpa using hi2⟩

theorem chunks_map_page_content (m : Meta) (ps : List String) :
    ∀ (n : Nat),
      ((List.enumFrom n ps).filterMap (fun ip =>
          if pystrip ip.2 ≠ "" then
            some (⟨pystrip ip.2, dictInsert m "chunk" (.nat ip.1)⟩ : Document)
          else none)).map Document.page_content
        = (ps.filter (fun p => pystrip p != "")).map pystrip := by
  induction ps with
  | nil => intro n; rfl
  | cons p t ih =>
      intro n
      rw [show List.enumFrom n (p :: t) = (n, p) :: List.enumFrom (n + 1) t from rfl]
      by_cases h : pystrip p = ""
      · simp only [List.filterMap_cons, List.filter_cons]
        rw [if_neg (by simpa using h)]
        simp only [h, bne_self_eq_false, Bool.false_eq_true, if_false]
        exact ih (n + 1)
      · simp only [List.filterMap_cons, List.filter_cons]
        rw [if_pos (by simpa using h)]
        have hb : (pystrip p != "") = true := by simpa using h
        rw [hb]
        simp only [if_true, List.map_cons]
        rw [ih (n + 1)]

/-! ## Helper lemmas for the ranker -/

theorem insertDesc_perm (x : Nat × Document) (l : List (Nat × Document)) :
    List.Perm (insertDesc x l) (x :: l) := by
  induction l with
  | nil => exact List.Perm.refl _
  | cons y t ih =>
      by_cases h : y.1 ≤ x.1
      · rw [show insertDesc x (y :: t) = x :: y :: t from if_pos h]
      · rw [show insertDesc x (y :: t) = y :: insertDesc x t from if_neg h]
        exact List.Perm.trans (List.Perm.cons y ih) (List.Perm.swap x y t)

theorem sortDescStable_perm (l : List (Nat × Document)) :
    List.Perm (sortDescStable l) l := by
  induction l with
  | nil => exact List.Perm.refl _
  | cons x t ih =>
      exact List.Perm.trans (insertDesc_perm x (sortDescStable t))
        (List.Perm.cons x ih)

theorem insertDesc_pairwise {x : Nat × Document} {l : List (Nat × Document)}
    (h : List.Pairwise (fun a b => b.1 ≤ a.1) l) :
    List.Pairwise (fun a b => b.1 ≤ a.1) (insertDesc x l) := by
  induction l with
  | nil => simp [insertDesc]
  | cons y t ih =>
      rcases List.pairwise_cons.mp h with ⟨hy, ht⟩
      by_cases hyx : y.1 ≤ x.1
      · rw [show insertDesc x (y :: t) = x :: y :: t from if_pos hyx]
        refine List.pairwise_cons.mpr ⟨?_, h⟩
        intro z hz
        rcases List.mem_cons.mp hz with rfl | hz2
        · exact hyx
        · exact le_trans (hy z hz2) hyx
      · rw [show insertDesc x (y :: t) = y :: insertDesc x t from if_neg hyx]
        refine List.pairwise_cons.mpr ⟨?_, ih ht⟩
        intro z hz
        have hz2 : z ∈ x :: t := (insertDesc_perm x t).mem_iff.mp hz
        rcases List.mem_cons.mp hz2 with rfl | hz3
        · omega
        · exact hy z hz3

theorem sortDescStable_pairwise (l : List (Nat × Document)) :
    List.Pairwise (fun a b => b.1 ≤ a.1) (sortDescStable l) := by
  induction l with
  | nil => simp [sortDescStable]
  | cons x t ih => exact insertDesc_pairwise ih

theorem insertDesc_filter_key (s : Nat) (x : Nat × Document)
    (l : List (Nat × Document)) :
    (insertDesc x l).filter (fun z => z.1 == s)
      = if x.1 = s then x :: l.filter (fun z => z.1 == s)
        else l.filter (fun z => z.1 == s) := by
  induction l with
  | nil =>
      by_cases h : x.1 = s
      · rw [if_pos h]
        simp [insertDesc, List.filter_cons, h]
      · rw [if_neg h]
        simp [insertDesc, List.filter_cons, h]
  | cons y t ih =>
      by_cases hyx : y.1 ≤ x.1
      · rw [show insertDesc x (y :: t) = x :: y :: t from if_pos hyx]
        by_cases hx : x.1 = s
        · rw [if_pos hx]
          simp [List.filter_cons, hx]
        · rw [if_neg hx]
          simp [List.filter_cons, hx]
      · rw [show insertDesc x (y :: t) = y :: insertDesc x t from if_neg hyx]
        by_cases hx : x.1 = s
        · have hy : (y.1 == s) = false := by
            have hne : ¬(y.1 = s) := by omega
            simpa using hne
          simp [List.filter_cons, ih, hx, hy]
        · cases hq : (y.1 == s) <;> simp [List.filter_cons, ih, hx, hq]

theorem sortDescStable_filter_key (s : Nat) (l : List (Nat × Document)) :
    (sortDescStable l).filter (fun z => z.1 == s)
      = l.filter (fun z => z.1 == s) := by
  induction l with
  | nil => rfl
  | cons x t ih =>
      rw [show sortDescStable (x :: t) = insertDesc x (sortDescStable t) from rfl]
      rw [insertDesc_filter_key, List.filter_cons]
      by_cases hx : x.1 = s
      · rw [if_pos hx, ih]
        have hb : (x.1 == s) = true := by simpa using hx
        rw [hb]
        simp
      · rw [if_neg hx, ih]
        have hb : (x.1 == s) = false := by simpa using hx
        rw [hb]
        simp

theorem mem_scoredDocs {qw : Finset String} {docs : List Document}
    {z : Nat × Document} (h : z ∈ scoredDocs qw docs) :
    z.1 = overlapScore qw z.2 ∧ 0 < z.1 ∧ z.2 ∈ docs := by
  unfold scoredDocs at h
  obtain ⟨a, ha, hfa⟩ := List.mem_filterMap.mp h
  simp only at hfa
  by_cases hpos : (qw ∩ wordSet a.page_content).card > 0
  · rw [if_pos hpos] at hfa
    have hz : ((qw ∩ wordSet a.page_content).card, a) = z := Option.some.inj hfa
    rw [← hz]
    exact ⟨rfl, hpos, ha⟩
  · rw [if_neg hpos] at hfa
    exact Option.noConfusion hfa

theorem scored_filter_sublist (qw : Finset String) (s : Nat) :
    ∀ (docs : List Document),
      (((scoredDocs qw docs).filter (fun z => z.1 == s)).map (fun p => p.2)).Sublist
        (docs.filter (fun d => overlapScore qw d == s)) := by
  intro docs
  induction docs with
  | nil => simp [scoredDocs]
  | cons d t ih =>
      have hstep : scoredDocs qw (d :: t)
          = if (qw ∩ wordSet d.page_content).card > 0 then
              ((qw ∩ wordSet d.page_content).card, d) :: scoredDocs qw t
            else scoredDocs qw t := by
        unfold scoredDocs
        rw [List.filterMap_cons]
        by_cases hpos : (qw ∩ wordSet d.page_content).card > 0
        · rw [if_pos hpos]
          simp only
          rw [if_pos hpos]
        · rw [if_neg hpos]
          simp only
          rw [if_neg hpos]
      rw [hstep, List.filter_cons]
      by_cases hpos : (qw ∩ wordSet d.page_content).card > 0
      · rw [if_pos hpos, List.filter_cons]
        by_cases hs : overlapScore qw d = s
        · have hb : (overlapScore qw d == s) = true := by simpa using hs
          have hb2 : (((qw ∩ wordSet d.page_content).card, d).1 == s) = true := by
            simpa [overlapScore] using hs
          rw [hb, hb2]
          simp only [if_true, List.map_cons]
          exact List.Sublist.cons₂ d ih
        · have hb : (overlapScore qw d == s) = false := by simpa using hs
          have hb2 : (((qw ∩ wordSet d.page_content).card, d).1 == s) = false := by
            simpa [overlapScore] using hs
          rw [hb, hb2]
          simpa using ih
      · rw [if_neg hpos]
        cases hq : (overlapScore qw d == s) with
        | true =>
            rw [if_pos (by simp [hq])]
            exact List.Sublist.cons d ih
        | false =>
            rw [if_neg (by simp [hq])]
            exact ih

/-! ## Claims -/

/-- C6: for every conversation state, `reset_conversation` empties the
conversation history and changes nothing else: the system prompt, the
RAG-enabled flag (and the rest of the state) keep their values. -/
theorem C6_reset_conversation_frame (s : AgentState) :
    (reset_conversation s).conversation_history = [] ∧
    (reset_conversation s).system_prompt = s.system_prompt ∧
    (reset_conversation s).use_rag = s.use_rag ∧
    (reset_conversation s).rag = s.rag :=
  ⟨rfl, rfl, rfl, rfl⟩

/-- C8: for every prior knowledge-store state, the knowledge-base build
with zero loaded documents returns a failure result with the message
"No documents loaded" and leaves the store exactly as it was. -/
theorem C8_setup_no_documents (mkLLM : Except String LLMClient) (s : RAGState) :
    setup_rag_knowledge_base mkLLM [] s = (s, false, "No documents loaded") := rfl

/-- C2 counterexample: with a failing LLM construction, the exception
does propagate out of the build, but the stored chunk collection
observable after the failed build is the new one, not the one from
before the build: the claim that it is unchanged is false. -/
theorem C2_counterexample :
    (create_knowledge_base (.error "boom") [⟨"b", []⟩] ⟨[⟨"a", []⟩], none⟩).2
        = .error "boom" ∧
    (create_knowledge_base (.error "boom") [⟨"b", []⟩] ⟨[⟨"a", []⟩], none⟩).1.documents
        ≠ [⟨"a", []⟩] := by
  exact ⟨rfl, by decide⟩

/-- C2 amended: for every non-empty chunk list, if the LLM-client
construction raises then the build as a whole fails (the exception
propagates), but the chunk store has at that point already been replaced
by the new chunks; the LLM field is left as it was. -/
theorem C2_create_knowledge_base_failure (documents : List Document)
    (s : RAGState) (e : String) (hne : documents ≠ []) :
    create_knowledge_base (.error e) documents s
      = ({s with documents := documents}, .error e) := by
  unfold create_knowledge_base
  rw [if_neg (fun h => hne (List.isEmpty_iff.mp h))]

/-- C2 witness: the amended statement evaluated at a concrete failing
build. -/
theorem C2_witness :
    create_knowledge_base (.error "boom") [⟨"b", []⟩] ⟨[⟨"a", []⟩], none⟩
      = (⟨[⟨"b", []⟩], none⟩, .error "boom") := by
  rw [C2_create_knowledge_base_failure [⟨"b", []⟩] ⟨[⟨"a", []⟩], none⟩ "boom"
    (by decide)]

/-- C3 counterexample: on an inactive session whose accumulated final
text is non-empty, stop returns the accumulated text but clears the text
buffers, so the resulting session state differs from the input state:
stop on an inactive session is not a state no-op. -/
theorem C3_counterexample :
    stop_continuous_recognition (.ok ()) true ⟨"hello ", "x", false⟩
        = .ok ("hello", ⟨"", "", false⟩) ∧
    (⟨"", "", false⟩ : SpeechState) ≠ ⟨"hello ", "x", false⟩ := by
  exact ⟨by decide, by decide⟩

/-- C3 amended: on every session state in which recognition is not
active, stop never forwards a stop request to the recognizer (so it
never raises, whatever that request would do), returns the stripped
accumulated final text and clears both text buffers; in particular on
the initial state before any start it returns the empty string and
leaves the state unchanged. -/
theorem C3_stop_inactive (recStop : Except String Unit) (hasRec : Bool)
    (s : SpeechState) (h : s.is_recognizing = false) :
    stop_continuous_recognition recStop hasRec s
        = .ok (pystrip s.recognized_text,
            {s with recognized_text := "", pending_text := ""}) ∧
    stop_continuous_recognition recStop hasRec initSpeechState
        = .ok ("", initSpeechState) := by
  constructor
  · unfold stop_continuous_recognition
    rw [if_neg (fun hc => by rw [h] at hc; exact Bool.noConfusion hc.2)]
  · unfold stop_continuous_recognition
    rw [if_neg (fun hc => Bool.noConfusion hc.2)]
    rfl

/-- C3 witness: the amended statement evaluated at a concrete inactive
state. -/
theorem C3_witness :
    stop_continuous_recognition (.ok ()) true ⟨"abc ", "p", false⟩
      = .ok ("abc", ⟨"", "", false⟩) := by
  rw [(C3_stop_inactive (.ok ()) true ⟨"abc ", "p", false⟩ rfl).1]
  decide

/-- C10: `generate_response` appends the user turn before the
chat-completion call, so when that call raises, the exception propagates
while the user turn stays in the history, no assistant turn is appended,
and the history grows by exactly one turn. -/
theorem C10_generate_response_failed_call
    (ragInvoke : String → Except String String)
    (chat : List Message → Except String String)
    (s : AgentState) (user_input : String) (e : String)
    (h : chat (gr_messages ragInvoke s user_input) = .error e) :
    generate_response ragInvoke chat s user_input
        = ({s with conversation_history :=
              s.conversation_history ++ [⟨"user", user_input⟩]}, .error e) ∧
    (generate_response ragInvoke chat s user_input).1.conversation_history.length
        = s.conversation_history.length + 1 := by
  have h1 : generate_response ragInvoke chat s user_input
      = ({s with conversation_history :=
            s.conversation_history ++ [⟨"user", user_input⟩]}, .error e) := by
    unfold generate_response
    rw [h]
  refine ⟨h1, ?_⟩
  rw [h1]
  simp

/-- C10 witness: the statement evaluated at a concrete failing
chat-completion call. -/
theorem C10_witness :
    generate_response (fun _ => .error "x") (fun _ => .error "down")
        ⟨[], "sys", false, ⟨[], none⟩⟩ "hi"
      = (⟨[⟨"user", "hi"⟩], "sys", false, ⟨[], none⟩⟩, .error "down") := by
  rw [(C10_generate_response_failed_call (fun _ => .error "x")
    (fun _ => .error "down") ⟨[], "sys", false, ⟨[], none⟩⟩ "hi" "down" rfl).1]
  decide

/-- C7: `query` never lets an exception escape (its embedding is a total
function into results holding an answer and a source list); in
particular, whenever the store is initialized, retrieval is non-empty
and the LLM invocation raises, the exception is caught and converted
into an answer string describing the failure, paired with an empty
source list. -/
theorem C7_query_error_conversion (invoke : String → Except String String)
    (s : RAGState) (question e : String)
    (hinit : (s.llm.isNone || s.documents.isEmpty) = false)
    (hrel : (find_relevant_documents s.documents question 3).isEmpty = false)
    (herr : invoke (rag_prompt
        (rag_context (find_relevant_documents s.documents question 3)) question)
      = .error e) :
    query invoke s question = ⟨"Error querying RAG system: " ++ e, []⟩ := by
  simp only [query, hinit, hrel, herr, Bool.false_eq_true, if_false]

/-- C7 witness: the statement evaluated at a concrete initialized store
and a failing LLM invocation. -/
theorem C7_witness :
    query (fun _ => .error "boom") ⟨[⟨"hello world", []⟩], some ()⟩ "hello"
      = ⟨"Error querying RAG system: " ++ "boom", []⟩ := by
  exact C7_query_error_conversion (fun _ => .error "boom")
    ⟨[⟨"hello world", []⟩], some ()⟩ "hello" "boom" (by decide) (by decide) rfl

/-- C9 counterexample: no single separator string makes the claimed
formula "finalText plus a separator plus partialText" match the code on
the otherwise-branch: with final "x" and novel partial "y" the code
returns "x y" (forcing a one-character separator), but with empty final
and novel partial "hi" it returns "hi" alone (forcing an empty
separator). -/
theorem C9_counterexample :
    ¬ ∃ sep : String,
      get_current_transcription ⟨"x", "y", false⟩ = "x" ++ sep ++ "y" ∧
      get_current_transcription ⟨"", "hi", false⟩ = "" ++ sep ++ "hi" := by
  rintro ⟨sep, h1, h2⟩
  have e1 : (get_current_transcription ⟨"x", "y", false⟩).length = 3 := by decide
  have e2 : (get_current_transcription ⟨"", "hi", false⟩).length = 2 := by decide
  rw [h1, String.length_append, String.length_append] at e1
  rw [h2, String.length_append, String.length_append] at e2
  have l1 : ("x" : String).length = 1 := by decide
  have l2 : ("y" : String).length = 1 := by decide
  have l3 : ("" : String).length = 0 := by decide
  have l4 : ("hi" : String).length = 2 := by decide
  rw [l1, l2] at e1
  rw [l3, l4] at e2
  omega

/-- C9 amended: `get_current_transcription` strips both stored texts and
then returns the final text alone when the partial text is empty or
case-insensitively contained in the final text; otherwise it returns the
partial text alone when the final text is empty, and the final text plus
a single space plus the partial text when both are non-empty. The
operation is read-only: it is a pure function of the session state. -/
theorem C9_get_current_transcription_spec (s : SpeechState) :
    get_current_transcription s = transcript_spec s := by
  unfold get_current_transcription transcript_spec
  by_cases hf : pystrip s.recognized_text = "" <;>
    by_cases hp : pystrip s.pending_text = "" <;>
    by_cases hc : pyContains (pyLower (pystrip s.recognized_text))
      (pyLower (pystrip s.pending_text)) = true
  · simp [hf, hp, hc]
  · simp [hf, hp, hc]
  · exfalso
    have hpl : pyLower (pystrip s.pending_text) ≠ "" :=
      fun h => hp ((pyLower_eq_empty_iff _).mp h)
    rw [hf] at hc
    rw [show pyLower "" = "" from rfl] at hc
    rw [pyContains_empty_hay hpl] at hc
    exact Bool.noConfusion hc
  · have hpl : pyLower (pystrip s.pending_text) ≠ "" :=
      fun h => hp ((pyLower_eq_empty_iff _).mp h)
    have hcf : pyContains (pyLower "") (pyLower (pystrip s.pending_text)) = false := by
      rw [show pyLower "" = "" from rfl]
      exact pyContains_empty_hay hpl
    simp [hf, hp, hc, hcf]
  · simp [hf, hp, hc]
  · simp [hf, hp, hc]
  · simp [hf, hp, hc]
  · simp [hf, hp, hc]

/-- C4 counterexample: delivering two finalized-utterance events both
carrying the non-empty text " hi" (leading space) to a freshly started
session yields final text "hi " that contains " hi" zero times, not
exactly once: the claim fails for texts with surrounding whitespace. -/
theorem C4_counterexample :
    countOccStr (recognized_cb ⟨.recognizedSpeech, " hi"⟩
        (recognized_cb ⟨.recognizedSpeech, " hi"⟩
          (start_continuous_recognition initSpeechState))).recognized_text
        " hi" = 0 ∧
    ¬ countOccStr (recognized_cb ⟨.recognizedSpeech, " hi"⟩
        (recognized_cb ⟨.recognizedSpeech, " hi"⟩
          (start_continuous_recognition initSpeechState))).recognized_text
        " hi" = 1 := by
  exact ⟨by decide, by decide⟩

/-- C4 amended: a finalized-utterance event whose stripped text is
already a substring of the accumulated final text (which includes the
whitespace-only case) is skipped, and otherwise its stripped text
followed by a separating space is appended; consequently, for every
text whose stripped form is non-empty, delivering two finalized events
carrying that text to a session with empty accumulated final text yields
final text containing the stripped form exactly once. -/
theorem C4_recognized_cb_dedup :
    (∀ (s : SpeechState) (t : String),
        pyContains s.recognized_text (pystrip t) = true →
        recognized_cb ⟨.recognizedSpeech, t⟩ s = s) ∧
    (∀ (s : SpeechState) (t : String),
        pyContains s.recognized_text (pystrip t) = false →
        recognized_cb ⟨.recognizedSpeech, t⟩ s
          = {s with recognized_text := s.recognized_text ++ pystrip t ++ " "}) ∧
    (∀ (s : SpeechState) (t : String), pystrip t ≠ "" →
        s.recognized_text = "" →
        countOccStr (recognized_cb ⟨.recognizedSpeech, t⟩
            (recognized_cb ⟨.recognizedSpeech, t⟩ s)).recognized_text
          (pystrip t) = 1) := by
  refine ⟨?_, ?_, ?_⟩
  · intro s t h
    simp [recognized_cb, h]
  · intro s t h
    have hne : pystrip t ≠ "" := by
      intro he
      rw [he, pyContains_empty_needle] at h
      exact Bool.noConfusion h
    simp [recognized_cb, h, hne]
  · intro s t hp h0
    have hc1 : pyContains s.recognized_text (pystrip t) = false := by
      rw [h0]
      exact pyContains_empty_hay hp
    have e1 : recognized_cb ⟨.recognizedSpeech, t⟩ s
        = {s with recognized_text := s.recognized_text ++ pystrip t ++ " "} := by
      simp [recognized_cb, hc1, hp]
    have hdata : (s.recognized_text ++ pystrip t ++ " ").data
        = (pystrip t).data ++ [' '] := by
      rw [h0]
      rfl
    have hc2 : pyContains (s.recognized_text ++ pystrip t ++ " ") (pystrip t) = true := by
      unfold pyContains
      rw [hdata]
      exact pyContainsL_of_isPrefixOf (isPrefixOf_append_self _ _)
    have e2 : recognized_cb ⟨.recognizedSpeech, t⟩
        ({s with recognized_text := s.recognized_text ++ pystrip t ++ " "})
        = {s with recognized_text := s.recognized_text ++ pystrip t ++ " "} := by
      simp [recognized_cb, hc2]
    rw [e1, e2]
    show countOcc (pystrip t).data (s.recognized_text ++ pystrip t ++ " ").data = 1
    rw [hdata]
    apply countOcc_concat_space
    · exact fun he => hp (String.ext he)
    · intro hlast
      have hws := pystrip_getLast?_not_ws t ' ' hlast
      have hsp : wsChar ' ' = true := by decide
      rw [hsp] at hws
      exact Bool.noConfusion hws

/-- C4 witness: the amended statement evaluated at concrete events — a
duplicate event is skipped, a novel event is appended with a space, and
a doubled event leaves exactly one occurrence. -/
theorem C4_witness :
    recognized_cb ⟨.recognizedSpeech, "hi"⟩ ⟨"hi ", "", true⟩ = ⟨"hi ", "", true⟩ ∧
    recognized_cb ⟨.recognizedSpeech, "new"⟩ ⟨"old ", "", true⟩
      = ⟨"old new ", "", true⟩ ∧
    countOccStr (recognized_cb ⟨.recognizedSpeech, "hello"⟩
        (recognized_cb ⟨.recognizedSpeech, "hello"⟩ ⟨"", "", true⟩)).recognized_text
      (pystrip "hello") = 1 := by
  refine ⟨?_, ?_, ?_⟩
  · exact C4_recognized_cb_dedup.1 ⟨"hi ", "", true⟩ "hi" (by decide)
  · rw [C4_recognized_cb_dedup.2.1 ⟨"old ", "", true⟩ "new" (by decide)]
    decide
  · exact C4_recognized_cb_dedup.2.2 ⟨"", "", true⟩ "hello" (by decide) rfl

theorem process_documents_eq_flatMap (docs : List Document) :
    process_documents docs = docs.flatMap docChunks := by
  cases docs with
  | nil => rfl
  | cons d t => rfl

theorem mem_process_documents {docs : List Document} {c : Document}
    (h : c ∈ process_documents docs) :
    ∃ doc ∈ docs, ∃ i p,
      (pySplitParas doc.page_content).get? i = some p ∧ pystrip p ≠ "" ∧
      c.page_content = pystrip p ∧
      c.metadata = dictInsert doc.metadata "chunk" (.nat i) := by
  rw [process_documents_eq_flatMap] at h
  obtain ⟨doc, hdoc, hc⟩ := List.mem_flatMap.mp h
  unfold docChunks at hc
  obtain ⟨ip, hip, hfa⟩ := List.mem_filterMap.mp hc
  by_cases hpp : pystrip ip.2 ≠ ""
  · rw [if_pos hpp] at hfa
    have hz := Option.some.inj hfa
    obtain ⟨i, hi1, hi2⟩ := mem_enumFrom_get? (pySplitParas doc.page_content) 0 ip hip
    refine ⟨doc, hdoc, i, ip.2, hi2, hpp, ?_, ?_⟩
    · rw [← hz]
    · rw [← hz]
      show dictInsert doc.metadata "chunk" (.nat ip.1)
        = dictInsert doc.metadata "chunk" (.nat i)
      rw [hi1]
      simp
  · rw [if_neg hpp] at hfa
    exact Option.noConfusion hfa

/-- C5: the chunker maps the empty input to the empty output, splits
every document on blank-line paragraph breaks, emits exactly one chunk
per paragraph with non-empty stripped text (in order, with the stripped
text as content, hence never empty), and each emitted chunk carries the
parent metadata plus the paragraph ordinal under the chunk key. -/
theorem C5_process_documents_spec :
    process_documents [] = [] ∧
    (∀ docs : List Document, process_documents docs = docs.flatMap docChunks) ∧
    (∀ doc : Document,
        (docChunks doc).map Document.page_content
          = ((pySplitParas doc.page_content).filter
              (fun p => pystrip p != "")).map pystrip) ∧
    (∀ docs : List Document, ∀ c ∈ process_documents docs, c.page_content ≠ "") ∧
    (∀ docs : List Document, ∀ c ∈ process_documents docs, ∃ doc ∈ docs, ∃ i p,
        (pySplitParas doc.page_content).get? i = some p ∧ pystrip p ≠ "" ∧
        c.page_content = pystrip p ∧
        dictGet c.metadata "chunk" = some (.nat i) ∧
        ∀ k2, k2 ≠ "chunk" → dictGet c.metadata k2 = dictGet doc.metadata k2) := by
  refine ⟨rfl, process_documents_eq_flatMap, ?_, ?_, ?_⟩
  · intro doc
    exact chunks_map_page_content doc.metadata (pySplitParas doc.page_content) 0
  · intro docs c hc
    obtain ⟨doc, _, i, pp, _, hpne, hcp, _⟩ := mem_process_documents hc
    rw [hcp]
    exact hpne
  · intro docs c hc
    obtain ⟨doc, hdoc, i, pp, h1, h2, h3, h4⟩ := mem_process_documents hc
    refine ⟨doc, hdoc, i, pp, h1, h2, h3, ?_, ?_⟩
    · rw [h4]
      exact dictGet_dictInsert_self _ _ _
    · intro k2 hk2
      rw [h4]
      exact dictGet_dictInsert_ne _ _ _ _ hk2

/-- C5 witness: the chunk invariants evaluated on a concrete document
with two non-empty paragraphs around a blank one. -/
theorem C5_witness :
    ((⟨"a", [("source", MVal.str "f"), ("chunk", MVal.nat 0)]⟩ : Document).page_content
        ≠ "") ∧
    (∃ doc ∈ [(⟨"a\n\n \n\nb", [("source", MVal.str "f")]⟩ : Document)], ∃ i p,
        (pySplitParas doc.page_content).get? i = some p ∧ pystrip p ≠ "" ∧
        (⟨"b", [("source", MVal.str "f"), ("chunk", MVal.nat 2)]⟩ : Document).page_content
          = pystrip p ∧
        dictGet (⟨"b", [("source", MVal.str "f"), ("chunk", MVal.nat 2)]⟩ :
            Document).metadata "chunk" = some (.nat i) ∧
        ∀ k2, k2 ≠ "chunk" →
          dictGet (⟨"b", [("source", MVal.str "f"), ("chunk", MVal.nat 2)]⟩ :
              Document).metadata k2 = dictGet doc.metadata k2) := by
  constructor
  · exact C5_process_documents_spec.2.2.2.1
      [⟨"a\n\n \n\nb", [("source", MVal.str "f")]⟩]
      ⟨"a", [("source", MVal.str "f"), ("chunk", MVal.nat 0)]⟩ (by decide)
  · exact C5_process_documents_spec.2.2.2.2
      [⟨"a\n\n \n\nb", [("source", MVal.str "f")]⟩]
      ⟨"b", [("source", MVal.str "f"), ("chunk", MVal.nat 2)]⟩ (by decide)

/-- C1: for every knowledge base, query and k, `find_relevant_documents`
returns at most k chunks; every returned chunk has positive overlap
score with the query, hence shares at least one lowercase word token
with it (zero-score chunks are excluded); the returned chunks are
sorted by non-increasing overlap score; and for every score value the
returned chunks with that score form a sublist of the stored chunks
with that score, in ingestion order (stable ties). -/
theorem C1_find_relevant_documents_spec (documents : List Document)
    (qy : String) (k : Nat) :
    (find_relevant_documents documents qy k).length ≤ k ∧
    (∀ d ∈ find_relevant_documents documents qy k,
        0 < overlapScore (wordSet qy) d ∧
        ∃ w, w ∈ wordSet qy ∧ w ∈ wordSet d.page_content) ∧
    List.Pairwise (fun a b =>
        overlapScore (wordSet qy) b ≤ overlapScore (wordSet qy) a)
      (find_relevant_documents documents qy k) ∧
    (∀ s : Nat,
      ((find_relevant_documents documents qy k).filter
          (fun d => overlapScore (wordSet qy) d == s)).Sublist
        (documents.filter (fun d => overlapScore (wordSet qy) d == s))) := by
  by_cases hd : documents.isEmpty
  · have he : find_relevant_documents documents qy k = [] := by
      unfold find_relevant_documents
      rw [if_pos hd]
    refine ⟨by rw [he]; simp, by rw [he]; simp, by rw [he]; simp, ?_⟩
    intro s
    rw [he]
    exact List.nil_sublist _
  · have he : find_relevant_documents documents qy k
        = ((sortDescStable (scoredDocs (wordSet qy) documents)).take k).map
            (fun p => p.2) := by
      unfold find_relevant_documents
      rw [if_neg hd]
    have hmemL : ∀ z ∈ sortDescStable (scoredDocs (wordSet qy) documents),
        z.1 = overlapScore (wordSet qy) z.2 ∧ 0 < z.1 ∧ z.2 ∈ documents :=
      fun z hz => mem_scoredDocs ((sortDescStable_perm _).mem_iff.mp hz)
    refine ⟨?_, ?_, ?_, ?_⟩
    · rw [he, List.length_map, List.length_take]
      exact min_le_left _ _
    · intro d hdm
      rw [he] at hdm
      obtain ⟨z, hz, hzd⟩ := List.mem_map.mp hdm
      have hzL := (List.take_sublist k _).subset hz
      obtain ⟨h1, h2, _⟩ := hmemL z hzL
      have hpos : 0 < overlapScore (wordSet qy) d := by
        have hz2 : z.2 = d := hzd
        rw [← hz2, ← h1]
        exact h2
      refine ⟨hpos, ?_⟩
      have hpos2 : 0 < (wordSet qy ∩ wordSet d.page_content).card := hpos
      obtain ⟨w, hw⟩ := Finset.card_pos.mp hpos2
      exact ⟨w, (Finset.mem_inter.mp hw).1, (Finset.mem_inter.mp hw).2⟩
    · rw [he, List.pairwise_map]
      have hp := List.Pairwise.sublist (List.take_sublist k _)
        (sortDescStable_pairwise (scoredDocs (wordSet qy) documents))
      refine List.Pairwise.imp_of_mem ?_ hp
      intro a b ha hb hab
      have haL := (List.take_sublist k _).subset ha
      have hbL := (List.take_sublist k _).subset hb
      show overlapScore (wordSet qy) b.2 ≤ overlapScore (wordSet qy) a.2
      rw [← (hmemL a haL).1, ← (hmemL b hbL).1]
      exact hab
    · intro s
      rw [he]
      rw [List.filter_map]
      have hcong : ((sortDescStable (scoredDocs (wordSet qy) documents)).take k).filter
            ((fun d => overlapScore (wordSet qy) d == s) ∘ fun p => p.2)
          = ((sortDescStable (scoredDocs (wordSet qy) documents)).take k).filter
            (fun z => z.1 == s) := by
        apply List.filter_congr
        intro z hz
        have hzL := (List.take_sublist k _).subset hz
        have h1 := (hmemL z hzL).1
        show (overlapScore (wordSet qy) z.2 == s) = (z.1 == s)
        rw [h1]
      rw [hcong]
      have hsub1 : (((sortDescStable (scoredDocs (wordSet qy) documents)).take k).filter
            (fun z => z.1 == s)).Sublist
          ((sortDescStable (scoredDocs (wordSet qy) documents)).filter
            (fun z => z.1 == s)) :=
        List.Sublist.filter _ (List.take_sublist k _)
      have hmap := List.Sublist.map (fun p : Nat × Document => p.2) hsub1
      rw [sortDescStable_filter_key s (scoredDocs (wordSet qy) documents)] at hmap
      exact hmap.trans (scored_filter_sublist (wordSet qy) s documents)

/-- C1 witness: the ranking invariants evaluated on a concrete two-chunk
store and a single-word query. -/
theorem C1_witness :
    (0 < overlapScore (wordSet "alpha") ⟨"alpha beta", []⟩ ∧
      ∃ w, w ∈ wordSet "alpha" ∧
        w ∈ wordSet (Document.page_content ⟨"alpha beta", []⟩)) ∧
    (find_relevant_documents [⟨"alpha beta", []⟩, ⟨"gamma", []⟩] "alpha" 3).length
      ≤ 3 := by
  constructor
  · exact (C1_find_relevant_documents_spec [⟨"alpha beta", []⟩, ⟨"gamma", []⟩]
      "alpha" 3).2.1 ⟨"alpha beta", []⟩ (by decide)
  · exact (C1_find_relevant_documents_spec [⟨"alpha beta", []⟩, ⟨"gamma", []⟩]
      "alpha" 3).1

end AISupport
